import Mathlib

/-!
Shallow embedding of the core logic of `src/app.js` (LockForge password
generator): charset building, password sampling, the strength heuristic
and the bounded history list.

Randomness is modelled by an explicit stream `s : Nat → Nat` of raw draws;
the JS call `randomInt(max) = Math.floor(Math.random()*max)` becomes
`s pos % max`, consuming one stream position.  The while-loop that
resamples ambiguous characters is modelled with explicit fuel, returning
`none` when the fuel runs out (the JS loop would still be running).
Character strings are modelled as `List Char`.
-/

namespace LockForge

/-- `const UPPER = "ABCDEFGHIJKLMNOPQRSTUVWXYZ"` -/
def UPPER : List Char := "ABCDEFGHIJKLMNOPQRSTUVWXYZ".data

/-- `const LOWER = "abcdefghijklmnopqrstuvwxyz"` -/
def LOWER : List Char := "abcdefghijklmnopqrstuvwxyz".data

/-- `const NUMS = "0123456789"` -/
def NUMS : List Char := "0123456789".data

/-- `const SYMBOLS = "!@#$%^&*()_+[]{}|;:,.<>?/~`-="` (braces escaped). -/
def SYMBOLS : List Char := "!@#$%^&*()_+[]\x7b\x7d|;:,.<>?/~`-=".data

/-- `const AMBIGUOUS = "0O1lI"` -/
def AMBIGUOUS : List Char := "0O1lI".data

/-- The five checkbox inputs read by the core functions. -/
structure Config where
  uppercase : Bool
  lowercase : Bool
  numbers : Bool
  symbols : Bool
  avoidAmbiguous : Bool
deriving DecidableEq, Repr

/-- `buildCharset()` from `src/app.js`: concatenate the sequences of the
checked categories, then strip every ambiguous character when
`avoidAmbiguous` is checked (the JS does this with a global regex
replace). -/
def buildCharset (cfg : Config) : List Char :=
  let cs := (if cfg.uppercase then UPPER else [])
    ++ (if cfg.lowercase then LOWER else [])
    ++ (if cfg.numbers then NUMS else [])
    ++ (if cfg.symbols then SYMBOLS else [])
  if cfg.avoidAmbiguous then cs.filter (fun c => c ∉ AMBIGUOUS) else cs

/-- The `selectedSets` array built inside `generatePassword`: the raw
(unfiltered) sequences of the checked categories, in checkbox order. -/
def selectedSets (cfg : Config) : List (List Char) :=
  (if cfg.uppercase then [UPPER] else [])
    ++ (if cfg.lowercase then [LOWER] else [])
    ++ (if cfg.numbers then [NUMS] else [])
    ++ (if cfg.symbols then [SYMBOLS] else [])

/-- A stream of raw random draws, one `Nat` per `Math.random()` call. -/
def RNG : Type := Nat → Nat

/-- `randomInt(max)` = `Math.floor(Math.random()*max)`, reading stream
position `pos`: a value in `[0, max)` when `max > 0`. -/
def randomInt (s : RNG) (pos max : Nat) : Nat := s pos % max

/-- `set[randomInt(set.length)]`.  The default `'A'` is never reached on
the character sets actually used, which are all nonempty. -/
def draw (set : List Char) (s : RNG) (pos : Nat) : Char :=
  set.getD (randomInt s pos set.length) 'A'

/-- The `while(AMBIGUOUS.includes(ch))` resample loop of
`generatePassword`, with fuel: keep drawing from `set` until the drawn
character is not ambiguous; `none` models a loop still running after
`fuel` iterations. -/
def resample (set : List Char) (s : RNG) : Nat → Nat → Option (Char × Nat)
  | _, 0 => none
  | pos, fuel + 1 =>
    let ch := draw set s pos
    if ch ∈ AMBIGUOUS then resample set s (pos + 1) fuel else some (ch, pos + 1)

/-- One guaranteed-slot character: draw from `set`; if ambiguous
exclusion is on and the draw is ambiguous, enter the resample loop. -/
def pickChar (set : List Char) (excl : Bool) (s : RNG) (pos fuel : Nat) :
    Option (Char × Nat) :=
  let ch := draw set s pos
  if excl = true ∧ ch ∈ AMBIGUOUS then resample set s (pos + 1) fuel
  else some (ch, pos + 1)

/-- The guaranteed-slot loop `for(let i=0;i<requiredCount;i++)`: slot `i`
draws from `selectedSets[i % selectedSets.length]` and appends to the
accumulator. `cnt` counts the remaining slots. -/
def placeGuaranteed (sets : List (List Char)) (excl : Bool) (s : RNG)
    (fuel : Nat) : Nat → Nat → Nat → List Char → Option (List Char × Nat)
  | _, 0, pos, acc => some (acc, pos)
  | i, cnt + 1, pos, acc =>
    match pickChar (sets.getD (i % sets.length) []) excl s pos fuel with
    | none => none
    | some (ch, pos2) => placeGuaranteed sets excl s fuel (i + 1) cnt pos2 (acc ++ [ch])

/-- The fill loop `for(let i=pw.length;i<length;i++)`: `cnt` remaining
slots, each drawn from the (already filtered) pool. -/
def fill (charset : List Char) (s : RNG) : Nat → Nat → List Char → List Char × Nat
  | 0, pos, acc => (acc, pos)
  | cnt + 1, pos, acc => fill charset s cnt (pos + 1) (acc ++ [draw charset s pos])

/-- Sign of one `() => Math.random() - 0.5` comparator call: `true` means
the comparator returned a negative value (keep the left element first). -/
def coin (s : RNG) (pos : Nat) : Bool := s pos % 2 = 0

/-- Random-comparator insertion: walk down the list, at each position
consuming one comparator call to decide whether to stop here. Models one
insertion step of the engine's comparison sort driven by the inconsistent
comparator of `pw.split('').sort(()=>Math.random()-0.5)`. -/
def rinsert (s : RNG) (c : Char) : List Char → Nat → List Char × Nat
  | [], pos => ([c], pos)
  | d :: rest, pos =>
    if coin s pos then (c :: d :: rest, pos + 1)
    else
      let r := rinsert s c rest (pos + 1)
      (d :: r.1, r.2)

/-- Comparison sort with the random comparator (insertion sort; the
ECMAScript sort algorithm is implementation-defined, but every
comparison sort applies some permutation, which is all the proofs use). -/
def rsort (s : RNG) : List Char → Nat → List Char × Nat
  | [], pos => ([], pos)
  | c :: rest, pos =>
    let r := rsort s rest pos
    rinsert s c r.1 r.2

/-- `generatePassword(length)` from `src/app.js`, parameterised by the
checkbox state `cfg`, the random stream `s` and the resample fuel.
Returns `some pw` for a completed run and `none` when some resample loop
is still running after `fuel` iterations. -/
def generatePassword (cfg : Config) (len : Nat) (s : RNG) (fuel : Nat) :
    Option (List Char) :=
  let charset := buildCharset cfg
  if charset = [] then some []
  else
    let sets := selectedSets cfg
    let required := min sets.length len
    match placeGuaranteed sets cfg.avoidAmbiguous s fuel 0 required 0 [] with
    | none => none
    | some (g, pos) =>
      let f := fill charset s (len - g.length) pos g
      some (rsort s f.1 f.2).1

/-- `/[a-z]/.test(pw)` -/
def hasLower (pw : List Char) : Bool := pw.any (fun c => 'a' ≤ c && c ≤ 'z')

/-- `/[A-Z]/.test(pw)` -/
def hasUpper (pw : List Char) : Bool := pw.any (fun c => 'A' ≤ c && c ≤ 'Z')

/-- `/[0-9]/.test(pw)` -/
def hasNum (pw : List Char) : Bool := pw.any (fun c => '0' ≤ c && c ≤ '9')

/-- `/[^A-Za-z0-9]/.test(pw)` -/
def hasSym (pw : List Char) : Bool :=
  pw.any (fun c => !(('a' ≤ c && c ≤ 'z') || ('A' ≤ c && c ≤ 'Z') || ('0' ≤ c && c ≤ '9')))

/-- `[hasLower, hasUpper, hasNum, hasSym].filter(Boolean).length` -/
def countTypes (pw : List Char) : Nat :=
  (if hasLower pw then 1 else 0) + (if hasUpper pw then 1 else 0)
    + (if hasNum pw then 1 else 0) + (if hasSym pw then 1 else 0)

/-- `/(.)\1{2,}/.test(pw)`: some character occurs 3+ times in a row. -/
def hasTripleRepeat : List Char → Bool
  | a :: b :: c :: rest => (a = b && b = c) || hasTripleRepeat (b :: c :: rest)
  | _ => false

/-- ASCII case-insensitive prefix match of one literal token, as the
`/i` flag canonicalises the ASCII letters of the four weak tokens. -/
def startsCI : List Char → List Char → Bool
  | [], _ => true
  | _ :: _, [] => false
  | t :: ts, c :: cs => (c.toLower = t) && startsCI ts cs

/-- `/^(?:password|1234|qwerty|admin)/i.test(pw)` -/
def isWeakPrefix (pw : List Char) : Bool :=
  startsCI "password".data pw || startsCI "1234".data pw
    || startsCI "qwerty".data pw || startsCI "admin".data pw

/-- The `{score, label}` object returned by `evaluateStrength`. -/
structure StrengthResult where
  score : ℤ
  label : String
deriving DecidableEq, Repr

/-- The three-character label `"â€”"` returned for empty input at line
106 of `src/app.js` (bytes `c3a2 e282ac e2809d`, i.e. U+00E2 U+20AC
U+201D — an em dash doubly UTF-8 encoded in the source). -/
def emptyLabel : String := String.mk [Char.ofNat 0xE2, Char.ofNat 0x20AC, Char.ofNat 0x201D]

/-- `evaluateStrength(pw)` from `src/app.js`.  The JS floating-point
arithmetic is modelled over `ℚ` with the literal `3.33 = 333/100`; in the
active range of `Math.min(40, ·)` the intermediate sums stay far from the
`.5` rounding boundaries, so the rational model rounds as the doubles do. -/
def evaluateStrength (pw : List Char) : StrengthResult :=
  if pw = [] then ⟨0, emptyLabel⟩
  else
    let len : ℚ := pw.length
    let base : ℚ := min 40 ((len - 6) * (333 / 100))
    let withTypes : ℚ := base + countTypes pw * 15
    let withPenalty : ℚ := withTypes - (if hasTripleRepeat pw then 10 else 0)
    let overridden : ℚ := if isWeakPrefix pw then 5 else withPenalty
    let score : ℤ := max 0 (min 100 (round overridden))
    let label : String :=
      if 80 ≤ score then "Strong"
      else if 60 ≤ score then "Medium"
      else if 30 ≤ score then "Weak"
      else "Very weak"
    ⟨score, label⟩

/-- `const MAX_HISTORY = 5` -/
def MAX_HISTORY : Nat := 5

/-- One `{pw, at}` history object; the `at` timestamp is an opaque input
supplied by the caller (`new Date().toISOString()`). -/
structure HistEntry where
  pw : String
  createdAt : Nat
deriving DecidableEq, Repr

/-- `pushHistory(pw)`: ignore falsy (empty) passwords, `unshift` the new
entry, `pop` the oldest when the list exceeds `MAX_HISTORY`. -/
def pushHistory (pw : String) (now : Nat) (h : List HistEntry) : List HistEntry :=
  if pw = "" then h
  else
    let h2 := ⟨pw, now⟩ :: h
    if MAX_HISTORY < h2.length then h2.dropLast else h2

/-- The clear-history handler: `history = []`. -/
def clearHistory : List HistEntry := []

/-- At least one category checkbox is checked. -/
def someEnabled (cfg : Config) : Prop :=
  cfg.uppercase = true ∨ cfg.lowercase = true ∨ cfg.numbers = true ∨ cfg.symbols = true

instance (cfg : Config) : Decidable (someEnabled cfg) := by
  unfold someEnabled; infer_instance

/-! ### Helper lemmas about the sampler -/

theorem draw_mem {set : List Char} (h : set ≠ []) (s : RNG) (pos : Nat) :
    draw set s pos ∈ set := by
  have hl : 0 < set.length := List.length_pos.mpr h
  have hk : randomInt s pos set.length < set.length := Nat.mod_lt _ hl
  rw [draw, List.getD_eq_getElem _ _ hk]
  exact List.getElem_mem hk

theorem resample_spec {set : List Char} {s : RNG} :
    ∀ {pos fuel ch p2}, resample set s pos fuel = some (ch, p2) →
      (set ≠ [] → ch ∈ set) ∧ ch ∉ AMBIGUOUS := by
  intro pos fuel
  induction fuel generalizing pos with
  | zero => intro ch p2 h; simp [resample] at h
  | succ n ih =>
    intro ch p2 h
    rw [resample] at h
    by_cases hamb : draw set s pos ∈ AMBIGUOUS
    · rw [if_pos hamb] at h; exact ih h
    · rw [if_neg hamb] at h
      obtain ⟨rfl, rfl⟩ : draw set s pos = ch ∧ pos + 1 = p2 := by
        simpa using h
      exact ⟨fun hne => draw_mem hne s pos, hamb⟩

theorem pickChar_spec {set : List Char} {excl : Bool} {s : RNG} {pos fuel ch p2}
    (h : pickChar set excl s pos fuel = some (ch, p2)) :
    (set ≠ [] → ch ∈ set) ∧ (excl = true → ch ∉ AMBIGUOUS) := by
  rw [pickChar] at h
  by_cases hc : excl = true ∧ draw set s pos ∈ AMBIGUOUS
  · rw [if_pos hc] at h
    obtain ⟨hmem, hamb⟩ := resample_spec h
    exact ⟨hmem, fun _ => hamb⟩
  · rw [if_neg hc] at h
    obtain ⟨rfl, rfl⟩ : draw set s pos = ch ∧ pos + 1 = p2 := by
      simpa using h
    refine ⟨fun hne => draw_mem hne s pos, fun hexcl hamb => hc ⟨hexcl, hamb⟩⟩

theorem placeGuaranteed_spec {sets : List (List Char)} {excl : Bool} {s : RNG}
    {fuel : Nat} :
    ∀ {cnt i pos acc g p2},
      placeGuaranteed sets excl s fuel i cnt pos acc = some (g, p2) →
      ∃ new, g = acc ++ new ∧ new.length = cnt ∧
        ∀ j, j < cnt → ∃ ch, new[j]? = some ch ∧
          (sets.getD ((i + j) % sets.length) [] ≠ [] →
            ch ∈ sets.getD ((i + j) % sets.length) []) ∧
          (excl = true → ch ∉ AMBIGUOUS) := by
  intro cnt
  induction cnt with
  | zero =>
    intro i pos acc g p2 h
    obtain ⟨rfl, rfl⟩ : acc = g ∧ pos = p2 := by simpa [placeGuaranteed] using h
    exact ⟨[], by simp⟩
  | succ n ih =>
    intro i pos acc g p2 h
    rw [placeGuaranteed] at h
    cases hpick : pickChar (sets.getD (i % sets.length) []) excl s pos fuel with
    | none => rw [hpick] at h; simp at h
    | some cp =>
      obtain ⟨ch, pos2⟩ := cp
      rw [hpick] at h
      obtain ⟨new, rfl, hlen, hmem⟩ := ih h
      refine ⟨ch :: new, by simp, by simp [hlen], ?_⟩
      intro j hj
      cases j with
      | zero =>
        refine ⟨ch, by simp, ?_, (pickChar_spec hpick).2⟩
        simpa using (pickChar_spec hpick).1
      | succ m =>
        obtain ⟨c2, hc2, hc2mem, hc2amb⟩ := hmem m (by omega)
        refine ⟨c2, by simpa using hc2, ?_, hc2amb⟩
        have : i + 1 + m = i + (m + 1) := by omega
        rwa [this] at hc2mem

theorem fill_spec {charset : List Char} {s : RNG} :
    ∀ {cnt pos acc}, ∃ new, (fill charset s cnt pos acc).1 = acc ++ new ∧
      new.length = cnt ∧ ∀ c ∈ new, charset ≠ [] → c ∈ charset := by
  intro cnt
  induction cnt with
  | zero => intro pos acc; exact ⟨[], by simp [fill]⟩
  | succ n ih =>
    intro pos acc
    obtain ⟨new, heq, hlen, hmem⟩ := @ih (pos + 1) (acc ++ [draw charset s pos])
    refine ⟨draw charset s pos :: new, ?_, by simp [hlen], ?_⟩
    · rw [fill, heq]; simp
    · intro c hc hne
      rcases List.mem_cons.mp hc with rfl | hc2
      · exact draw_mem hne s pos
      · exact hmem c hc2 hne

theorem rinsert_perm (s : RNG) (c : Char) :
    ∀ (l : List Char) (pos : Nat), (rinsert s c l pos).1.Perm (c :: l) := by
  intro l
  induction l with
  | nil => intro pos; simp [rinsert]
  | cons d rest ih =>
    intro pos
    rw [rinsert]
    by_cases hc : coin s pos
    · simp [hc]
    · simp only [hc, if_false]
      exact ((ih (pos + 1)).cons d).trans (List.Perm.swap c d rest)

theorem rsort_perm (s : RNG) :
    ∀ (l : List Char) (pos : Nat), (rsort s l pos).1.Perm l := by
  intro l
  induction l with
  | nil => intro pos; simp [rsort]
  | cons c rest ih =>
    intro pos
    rw [rsort]
    exact (rinsert_perm s c _ _).trans (((ih pos)).cons c)

theorem mem_selectedSets {cfg : Config} {t : List Char} (ht : t ∈ selectedSets cfg) :
    (t = UPPER ∧ cfg.uppercase = true) ∨ (t = LOWER ∧ cfg.lowercase = true) ∨
      (t = NUMS ∧ cfg.numbers = true) ∨ (t = SYMBOLS ∧ cfg.symbols = true) := by
  obtain ⟨up, lo, nu, sy, av⟩ := cfg
  cases up <;> cases lo <;> cases nu <;> cases sy <;>
    simp_all [selectedSets]

theorem selectedSets_sets_ne_nil {cfg : Config} {t : List Char}
    (ht : t ∈ selectedSets cfg) : t ≠ [] := by
  rcases mem_selectedSets ht with ⟨rfl, _⟩ | ⟨rfl, _⟩ | ⟨rfl, _⟩ | ⟨rfl, _⟩ <;> decide

theorem selectedSets_ne_nil {cfg : Config} (h : someEnabled cfg) :
    selectedSets cfg ≠ [] := by
  obtain ⟨up, lo, nu, sy, av⟩ := cfg
  rcases h with h | h | h | h <;> simp_all [selectedSets]

theorem buildCharset_ne_nil {cfg : Config} (h : someEnabled cfg) :
    buildCharset cfg ≠ [] := by
  obtain ⟨up, lo, nu, sy, av⟩ := cfg
  rcases h with h | h | h | h <;> simp_all <;> cases up <;> cases lo <;>
    cases nu <;> cases sy <;> cases av <;> decide

theorem generatePassword_some_elim {cfg : Config} {len : Nat} {s : RNG}
    {fuel : Nat} {pw : List Char} (hcat : someEnabled cfg)
    (hgen : generatePassword cfg len s fuel = some pw) :
    ∃ g pos, placeGuaranteed (selectedSets cfg) cfg.avoidAmbiguous s fuel 0
        (min (selectedSets cfg).length len) 0 [] = some (g, pos) ∧
      pw.Perm (fill (buildCharset cfg) s (len - g.length) pos g).1 := by
  have hne := buildCharset_ne_nil hcat
  rw [generatePassword] at hgen
  simp only [if_neg hne] at hgen
  cases hpg : placeGuaranteed (selectedSets cfg) cfg.avoidAmbiguous s fuel 0
      (min (selectedSets cfg).length len) 0 [] with
  | none => rw [hpg] at hgen; simp at hgen
  | some gp =>
    obtain ⟨g, pos⟩ := gp
    rw [hpg] at hgen
    refine ⟨g, pos, rfl, ?_⟩
    obtain rfl : (rsort s (fill (buildCharset cfg) s (len - g.length) pos g).1
        (fill (buildCharset cfg) s (len - g.length) pos g).2).1 = pw := by
      simpa using hgen
    exact rsort_perm s _ _

/-- Claim C2: when `len` is at least the number of enabled categories, a
completed `generatePassword` run contains at least one character from
every enabled category's fixed sequence, with or without ambiguous
exclusion. -/
theorem generatePassword_covers_categories (cfg : Config) (len : Nat)
    (s : RNG) (fuel : Nat) (pw : List Char) (hcat : someEnabled cfg)
    (hlen : (selectedSets cfg).length ≤ len)
    (hgen : generatePassword cfg len s fuel = some pw) :
    ∀ t ∈ selectedSets cfg, ∃ c ∈ pw, c ∈ t := by
  obtain ⟨g, pos, hpg, hperm⟩ := generatePassword_some_elim hcat hgen
  obtain ⟨new, hgeq, hglen, hgmem⟩ := placeGuaranteed_spec hpg
  rw [List.nil_append] at hgeq
  subst hgeq
  obtain ⟨new2, hfeq, hflen, hfmem⟩ :=
    @fill_spec (buildCharset cfg) s (len - g.length) pos g
  have hsetsne : selectedSets cfg ≠ [] := selectedSets_ne_nil hcat
  have hn : 0 < (selectedSets cfg).length := List.length_pos.mpr hsetsne
  have hminn : min (selectedSets cfg).length len = (selectedSets cfg).length :=
    min_eq_left hlen
  intro t ht
  obtain ⟨⟨k, hk⟩, hkt⟩ := List.mem_iff_get.mp ht
  have hkcnt : k < min (selectedSets cfg).length len := by omega
  obtain ⟨ch, hch, hchmem, _⟩ := hgmem k hkcnt
  have hidx : (0 + k) % (selectedSets cfg).length = k := by
    rw [Nat.zero_add]; exact Nat.mod_eq_of_lt hk
  have hgetD : (selectedSets cfg).getD ((0 + k) % (selectedSets cfg).length) [] = t := by
    rw [hidx, List.getD_eq_getElem _ _ hk]
    simpa [List.get_eq_getElem] using hkt
  have htne : t ≠ [] := selectedSets_sets_ne_nil ht
  have hcht : ch ∈ t := by
    have := hchmem (by rw [hgetD]; exact htne)
    rwa [hgetD] at this
  have hchg : ch ∈ g := by
    have hkg : k < g.length := by omega
    rw [List.getElem?_eq_getElem hkg] at hch
    have : g[k] = ch := Option.some_injective _ hch
    exact this ▸ List.getElem_mem hkg
  refine ⟨ch, ?_, hcht⟩
  apply hperm.mem_iff.mpr
  rw [hfeq]
  exact List.mem_append_left _ hchg

theorem generatePassword_covers_categories_witness :
    someEnabled ⟨true, true, true, true, false⟩ ∧
      (selectedSets ⟨true, true, true, true, false⟩).length ≤ 8 ∧
      generatePassword ⟨true, true, true, true, false⟩ 8 (fun n => n % 7) 10 =
        some ['2', 'A', 'b', 'F', '$', 'E', 'A', 'G'] ∧
      (∀ t ∈ selectedSets ⟨true, true, true, true, false⟩,
        ∃ c ∈ (['2', 'A', 'b', 'F', '$', 'E', 'A', 'G'] : List Char), c ∈ t) :=
  ⟨by decide, by decide, by decide,
    generatePassword_covers_categories ⟨true, true, true, true, false⟩ 8
      (fun n => n % 7) 10 ['2', 'A', 'b', 'F', '$', 'E', 'A', 'G']
      (by decide) (by decide) (by decide)⟩

/-- Claim C3: with no category enabled, `generatePassword` returns the
empty string for every length, stream and fuel — the empty pool is
signaled by an empty result, not by an exception. -/
theorem generatePassword_empty_config (cfg : Config) (len : Nat) (s : RNG)
    (fuel : Nat) (h : cfg.uppercase = false ∧ cfg.lowercase = false ∧
      cfg.numbers = false ∧ cfg.symbols = false) :
    generatePassword cfg len s fuel = some [] := by
  obtain ⟨up, lo, nu, sy, av⟩ := cfg
  obtain ⟨h1, h2, h3, h4⟩ := h
  simp only at h1 h2 h3 h4
  subst h1; subst h2; subst h3; subst h4
  have hcs : buildCharset ⟨false, false, false, false, av⟩ = [] := by
    cases av <;> decide
  rw [generatePassword]
  simp [hcs]

theorem generatePassword_empty_config_witness :
    (Config.uppercase ⟨false, false, false, false, false⟩ = false ∧
      Config.lowercase ⟨false, false, false, false, false⟩ = false ∧
      Config.numbers ⟨false, false, false, false, false⟩ = false ∧
      Config.symbols ⟨false, false, false, false, false⟩ = false) ∧
      generatePassword ⟨false, false, false, false, false⟩ 5 (fun _ => 0) 10 =
        some [] :=
  ⟨by decide,
    generatePassword_empty_config ⟨false, false, false, false, false⟩ 5
      (fun _ => 0) 10 (by decide)⟩

/-- Claim C4, counterexample: the empty string gets the placeholder
label `"â€”"` (a doubly-encoded em dash), which is not `"Very weak"` and
not in the documented label set. -/
theorem evaluateStrength_empty_label_not_very_weak :
    (evaluateStrength []).score = 0 ∧
      (evaluateStrength []).label ≠ "Very weak" ∧
      (evaluateStrength []).label ∉ (["Very weak", "Weak", "Medium", "Strong"] : List String) := by
  refine ⟨rfl, ?_, ?_⟩ <;> decide

/-- Claim C4, amended: the empty string gets score 0 with the
placeholder label `emptyLabel`; every nonempty text's label is one of
Very weak, Weak, Medium, Strong. -/
theorem evaluateStrength_empty_score_and_label_range :
    (evaluateStrength []).score = 0 ∧
      (evaluateStrength []).label = emptyLabel ∧
      ∀ pw : List Char, pw ≠ [] →
        (evaluateStrength pw).label ∈ (["Very weak", "Weak", "Medium", "Strong"] : List String) := by
  refine ⟨rfl, rfl, ?_⟩
  intro pw hne
  rw [evaluateStrength, if_neg hne]
  simp only
  split_ifs <;> simp

theorem evaluateStrength_empty_score_and_label_range_witness :
    (['a'] ≠ ([] : List Char)) ∧
      (evaluateStrength ['a']).label ∈ (["Very weak", "Weak", "Medium", "Strong"] : List String) :=
  ⟨by decide, evaluateStrength_empty_score_and_label_range.2.2 ['a'] (by decide)⟩

/-- Claim C5: a text that case-insensitively starts with one of the four
weak tokens scores exactly 5, whatever its length, variety or penalty. -/
theorem evaluateStrength_weak_prefix_score (pw : List Char)
    (h : isWeakPrefix pw = true) : (evaluateStrength pw).score = 5 := by
  have hne : pw ≠ [] := by rintro rfl; exact absurd h (by decide)
  rw [evaluateStrength, if_neg hne]
  simp only [h, if_true]
  norm_num

theorem evaluateStrength_weak_prefix_score_witness :
    isWeakPrefix "password123".data = true ∧
      (evaluateStrength "password123".data).score = 5 :=
  ⟨by decide, evaluateStrength_weak_prefix_score "password123".data (by decide)⟩

/-- The score of a nonempty, non-weak-prefixed text, written as the
clamped rounding of the rational scoring expression. -/
theorem evaluateStrength_score_eq {pw : List Char} (hne : pw ≠ [])
    (hw : isWeakPrefix pw = false) :
    (evaluateStrength pw).score =
      max 0 (min 100 (round (min 40 (((pw.length : ℚ) - 6) * (333 / 100))
        + countTypes pw * 15 - (if hasTripleRepeat pw then (10 : ℚ) else 0)))) := by
  rw [evaluateStrength, if_neg hne]
  simp [hw]

theorem round_mono_rat {x y : ℚ} (h : x ≤ y) : round x ≤ round y := by
  rw [round_eq, round_eq]
  exact Int.floor_le_floor (by linarith)

/-- In the clamp's active range the length component is at its plateau:
for `18 ≤ n` the rounded total is `40` plus the integer rest (at `n = 18`
the raw component is `39.96`, which the `.96` fraction rounds up). -/
theorem round_length_component_plateau (n : ℕ) (hn : 18 ≤ n) (c : ℤ) :
    round (min 40 (((n : ℚ) - 6) * (333 / 100)) + (c : ℚ)) = 40 + c := by
  have hn18 : (18 : ℚ) ≤ (n : ℚ) := by exact_mod_cast hn
  have hx : (999 / 25 : ℚ) ≤ ((n : ℚ) - 6) * (333 / 100) := by nlinarith
  have hm1 : (999 / 25 : ℚ) ≤ min 40 (((n : ℚ) - 6) * (333 / 100)) :=
    le_min (by norm_num) hx
  have hm2 : min 40 (((n : ℚ) - 6) * (333 / 100)) ≤ 40 := min_le_left _ _
  rw [round_add_int, round_eq]
  have : ⌊min 40 (((n : ℚ) - 6) * (333 / 100)) + 1 / 2⌋ = 40 := by
    rw [Int.floor_eq_iff]
    constructor
    · push_cast; linarith
    · push_cast; linarith
  rw [this]

/-- Claim C6: at fixed character-class diversity, equal repeat-run
penalty and no weak-prefix override, the score is non-decreasing in the
length, and from length 18 on it is constant (the length component's
plateau, observable through rounding from length 18). -/
theorem evaluateStrength_mono_in_length (p q : List Char) (hp : p ≠ [])
    (hq : q ≠ []) (htypes : countTypes p = countTypes q)
    (hrep : hasTripleRepeat p = hasTripleRepeat q)
    (hwp : isWeakPrefix p = false) (hwq : isWeakPrefix q = false)
    (hlen : p.length ≤ q.length) :
    (evaluateStrength p).score ≤ (evaluateStrength q).score ∧
      (18 ≤ p.length → (evaluateStrength p).score = (evaluateStrength q).score) := by
  rw [evaluateStrength_score_eq hp hwp, evaluateStrength_score_eq hq hwq,
    htypes, hrep]
  have hI : ∀ m : ℕ,
      min 40 (((m : ℚ) - 6) * (333 / 100)) + countTypes q * 15
          - (if hasTripleRepeat q then (10 : ℚ) else 0)
        = min 40 (((m : ℚ) - 6) * (333 / 100))
          + (((countTypes q : ℤ) * 15
              - (if hasTripleRepeat q then (10 : ℤ) else 0) : ℤ) : ℚ) := by
    intro m
    by_cases hr : hasTripleRepeat q = true
    · simp [hr]; ring
    · simp [hr]
  rw [hI p.length, hI q.length]
  have hbase : min 40 (((p.length : ℚ) - 6) * (333 / 100))
      ≤ min 40 (((q.length : ℚ) - 6) * (333 / 100)) := by
    apply min_le_min le_rfl
    have : (p.length : ℚ) ≤ (q.length : ℚ) := by exact_mod_cast hlen
    nlinarith
  refine ⟨max_le_max le_rfl (min_le_min le_rfl (round_mono_rat (by linarith))), ?_⟩
  intro h18
  have h18q : 18 ≤ q.length := le_trans h18 hlen
  rw [round_length_component_plateau p.length h18,
    round_length_component_plateau q.length h18q]

theorem evaluateStrength_mono_in_length_witness :
    ("abcdefghijklmnopqr".data ≠ ([] : List Char)) ∧
      ("abcdefghijklmnopqrst".data ≠ ([] : List Char)) ∧
      countTypes "abcdefghijklmnopqr".data = countTypes "abcdefghijklmnopqrst".data ∧
      hasTripleRepeat "abcdefghijklmnopqr".data = hasTripleRepeat "abcdefghijklmnopqrst".data ∧
      isWeakPrefix "abcdefghijklmnopqr".data = false ∧
      isWeakPrefix "abcdefghijklmnopqrst".data = false ∧
      "abcdefghijklmnopqr".data.length ≤ "abcdefghijklmnopqrst".data.length ∧
      ((evaluateStrength "abcdefghijklmnopqr".data).score
          ≤ (evaluateStrength "abcdefghijklmnopqrst".data).score ∧
        (18 ≤ "abcdefghijklmnopqr".data.length →
          (evaluateStrength "abcdefghijklmnopqr".data).score
            = (evaluateStrength "abcdefghijklmnopqrst".data).score)) :=
  ⟨by decide, by decide, by decide, by decide, by decide, by decide, by decide,
    evaluateStrength_mono_in_length "abcdefghijklmnopqr".data
      "abcdefghijklmnopqrst".data (by decide) (by decide) (by decide)
      (by decide) (by decide) (by decide) (by decide)⟩

/-- The run never completes: for every fuel bound the resample loop is
still running. -/
def neverCompletes (cfg : Config) (len : Nat) (s : RNG) : Prop :=
  ∀ fuel, generatePassword cfg len s fuel = none

theorem resample_NUMS_zero_stream :
    ∀ fuel pos, resample NUMS (fun _ => 0) pos fuel = none := by
  intro fuel
  induction fuel with
  | zero => intro pos; rfl
  | succ n ih =>
    intro pos
    rw [resample]
    rw [show draw NUMS (fun _ => 0) pos = '0' from rfl,
      if_pos (show '0' ∈ AMBIGUOUS by decide)]
    exact ih (pos + 1)

/-- Claim C8, counterexample: with only digits enabled and ambiguous
exclusion on, the stream that always draws index 0 (the digit `'0'`)
keeps the `while(AMBIGUOUS.includes(ch))` loop spinning forever — the
work is not bounded and the call never returns. -/
theorem generatePassword_unbounded_retry :
    neverCompletes ⟨false, false, true, false, true⟩ 1 (fun _ => 0) := by
  intro fuel
  have hne : buildCharset ⟨false, false, true, false, true⟩ ≠ [] := by decide
  rw [generatePassword]
  simp only [if_neg hne]
  have hpg : placeGuaranteed (selectedSets ⟨false, false, true, false, true⟩)
      true (fun _ => 0) fuel 0
      (min (selectedSets ⟨false, false, true, false, true⟩).length 1) 0 [] = none := by
    rw [show selectedSets ⟨false, false, true, false, true⟩ = [NUMS] from rfl]
    rw [show min ([NUMS] : List (List Char)).length 1 = 1 from rfl]
    rw [placeGuaranteed]
    have hpick : pickChar
        (([NUMS] : List (List Char)).getD (0 % ([NUMS] : List (List Char)).length) [])
        true (fun _ => 0) 0 fuel = none := by
      rw [show (([NUMS] : List (List Char)).getD
        (0 % ([NUMS] : List (List Char)).length) []) = NUMS from rfl]
      rw [pickChar]
      rw [show draw NUMS (fun _ => 0) 0 = '0' from rfl,
        if_pos ⟨rfl, show '0' ∈ AMBIGUOUS by decide⟩]
      exact resample_NUMS_zero_stream fuel 1
    rw [hpick]
  rw [hpg]

/-- Claim C8, amended: with ambiguous exclusion off the resample loop is
never entered, so `generatePassword` completes on every input, stream
and fuel bound — even fuel 0 (`evaluateStrength` is total by
construction).  No draw-count bound is asserted: the comparator-driven
shuffle alone can consume more than `O(length)` draws. -/
theorem generatePassword_total_without_exclusion (cfg : Config) (len : Nat)
    (s : RNG) (fuel : Nat) (h : cfg.avoidAmbiguous = false) :
    (generatePassword cfg len s fuel).isSome = true := by
  rw [generatePassword]
  by_cases hcs : buildCharset cfg = []
  · simp [hcs]
  · simp only [if_neg hcs, h]
    have hall : ∀ cnt i pos acc, ∃ g pos2,
        placeGuaranteed (selectedSets cfg) false s fuel i cnt pos acc =
          some (g, pos2) := by
      intro cnt
      induction cnt with
      | zero => intro i pos acc; exact ⟨acc, pos, rfl⟩
      | succ n ih =>
        intro i pos acc
        rw [placeGuaranteed, pickChar]
        rw [if_neg (by simp)]
        exact ih (i + 1) _ _
    obtain ⟨g, pos2, hpg⟩ := hall (min (selectedSets cfg).length len) 0 0 []
    rw [hpg]
    rfl

theorem generatePassword_total_without_exclusion_witness :
    Config.avoidAmbiguous ⟨true, true, true, true, false⟩ = false ∧
      (generatePassword ⟨true, true, true, true, false⟩ 8 (fun n => n) 0).isSome = true :=
  ⟨by decide,
    generatePassword_total_without_exclusion ⟨true, true, true, true, false⟩ 8
      (fun n => n) 0 (by decide)⟩

/-- Claim C9: `pushHistory` keeps the history within `MAX_HISTORY = 5`
entries, prepends the new entry (most-recent-first) and evicts the
oldest (last) entry when the list is full; clearing trivially respects
the bound. -/
theorem pushHistory_bounded (pw : String) (now : Nat) (h : List HistEntry)
    (hb : h.length ≤ MAX_HISTORY) :
    (pushHistory pw now h).length ≤ MAX_HISTORY ∧
      (pw ≠ "" → (pushHistory pw now h).head? = some ⟨pw, now⟩) ∧
      (pw ≠ "" → h.length = MAX_HISTORY →
        pushHistory pw now h = ⟨pw, now⟩ :: h.dropLast) ∧
      clearHistory.length ≤ MAX_HISTORY := by
  refine ⟨?_, ?_, ?_, by decide⟩ <;> unfold pushHistory <;>
    by_cases hpw : pw = "" <;> simp only [hpw, if_true, if_false, ne_eq]
  · exact hb
  · by_cases hfull : h.length = MAX_HISTORY
    · rw [if_pos (by simp [hfull, MAX_HISTORY])]
      rw [List.length_dropLast]
      simp [hfull]
    · rw [if_neg (by simp only [List.length_cons]; omega)]
      simp only [List.length_cons]
      omega
  · simp
  · intro _
    by_cases hfull : h.length = MAX_HISTORY
    · rw [if_pos (by simp [hfull, MAX_HISTORY])]
      have hne : h ≠ [] := by
        intro hnil
        rw [hnil] at hfull
        exact absurd hfull (by decide)
      rw [List.dropLast_cons_of_ne_nil hne]
      simp
    · rw [if_neg (by simp only [List.length_cons]; omega)]
      simp
  · simp
  · intro _ hfull
    rw [if_pos (by simp [hfull, MAX_HISTORY])]
    have hne : h ≠ [] := by
      intro hnil
      rw [hnil] at hfull
      exact absurd hfull (by decide)
    rw [List.dropLast_cons_of_ne_nil hne]

theorem pushHistory_bounded_witness :
    ((([⟨"a", 0⟩, ⟨"b", 0⟩, ⟨"c", 0⟩, ⟨"d", 0⟩, ⟨"e", 0⟩] : List HistEntry)).length
        ≤ MAX_HISTORY) ∧
      ((pushHistory "x" 7 [⟨"a", 0⟩, ⟨"b", 0⟩, ⟨"c", 0⟩, ⟨"d", 0⟩, ⟨"e", 0⟩]).length
          ≤ MAX_HISTORY ∧
        ("x" ≠ "" →
          (pushHistory "x" 7 [⟨"a", 0⟩, ⟨"b", 0⟩, ⟨"c", 0⟩, ⟨"d", 0⟩, ⟨"e", 0⟩]).head?
            = some ⟨"x", 7⟩) ∧
        ("x" ≠ "" →
          (([⟨"a", 0⟩, ⟨"b", 0⟩, ⟨"c", 0⟩, ⟨"d", 0⟩, ⟨"e", 0⟩] : List HistEntry)).length
              = MAX_HISTORY →
          pushHistory "x" 7 [⟨"a", 0⟩, ⟨"b", 0⟩, ⟨"c", 0⟩, ⟨"d", 0⟩, ⟨"e", 0⟩]
            = ⟨"x", 7⟩ ::
              ([⟨"a", 0⟩, ⟨"b", 0⟩, ⟨"c", 0⟩, ⟨"d", 0⟩, ⟨"e", 0⟩] : List HistEntry).dropLast) ∧
        clearHistory.length ≤ MAX_HISTORY) :=
  ⟨by decide,
    pushHistory_bounded "x" 7 [⟨"a", 0⟩, ⟨"b", 0⟩, ⟨"c", 0⟩, ⟨"d", 0⟩, ⟨"e", 0⟩]
      (by decide)⟩

/-- Claim C10: pushing a falsy (empty) password is a no-op — a failed
generation is never recorded in the history. -/
theorem pushHistory_empty_noop (now : Nat) (h : List HistEntry) :
    pushHistory "" now h = h := by
  simp [pushHistory]

end LockForge
